import Mathlib

namespace IndexProvider

/-
Verification development for the index-provider repository.

The Go sources embedded here:
  * engine/xproviders (streaming adapter `toChan` / `ToCidCallback`,
    advertisement builder `BuildAndSign` as pinned by its tests),
  * internal/suppliers/car_supplier.go (`Put`, `PutWithID`, `Remove`,
    `Supply`, `toPathKey`, with Go's `filepath.Clean` modelled in full),
  * cmd/provider/verify_ingest.go (`beforeVerifyIngest`,
    `verifyIngestFromCarIterableIndex`, `passedVerification`).

Machine integers do not occur on the verified paths; Go byte values are
modelled as `Nat`, byte slices as `List Nat`, strings as Lean `String`.
External collaborators (the key-value datastore, the SHA-256 accumulator,
the remote finder client, math/rand) are modelled at their interfaces,
exactly as the code uses them.
-/

/-- Content identifiers (go-cid `cid.Cid`) are opaque values; only equality
and serialisation round-trips matter to the embedded code. -/
abbrev Cid := Nat

/-- Go byte slices. -/
abbrev Bytes := List Nat

/-- Go `error` values other than `io.EOF`, identified by their message. -/
abbrev GoErr := String

/-! ## Streaming adapter (suppliers/cid_iterator adapter, engine/xproviders part)

`toChan` spawns one goroutine that drains a pull iterator
(`Next() (cid.Cid, error)`) into a capacity-1 cid channel and a capacity-1
error channel.  A run of the iterator is modelled as the finite list of
results its successive `Next` calls return; the goroutine's externally
visible behaviour is the ordered trace of channel events it performs. -/

/-- Result of one `Next()` call of a `CidIterator`: a value with nil error,
a value paired with a non-EOF error, or `io.EOF`. -/
inductive NextStep where
  | item (c : Cid)
  | fail (c : Cid) (e : GoErr)
  | eof
deriving DecidableEq, Repr

/-- An observable action of the `toChan` drain goroutine: a send on the
error channel, a send on the cid channel, or the deferred close of both
channels. -/
inductive ChanEvent where
  | errSent (e : GoErr)
  | valSent (c : Cid)
  | closedBoth
deriving DecidableEq, Repr

/-- Event trace of the goroutine started by `toChan`, from the Go loop:
on `io.EOF` it breaks and the deferred closes run; on a non-EOF error it
sends the error and then still falls through to send the accompanying cid
value; on success it sends the value.  An iterator run that never returns
EOF yields a trace with no close event. -/
def toChanTrace : List NextStep → List ChanEvent
  | [] => []
  | .eof :: _ => [.closedBoth]
  | .item c :: rest => .valSent c :: toChanTrace rest
  | .fail c e :: rest => .errSent e :: .valSent c :: toChanTrace rest

/-- A Go buffered channel as observed at a single point in time: its
capacity, the values it currently buffers, and whether it is closed. -/
structure BufChan (α : Type) where
  capacity : Nat
  buffered : List α
  closed : Bool
deriving DecidableEq, Repr

/-- Value returned by the callback produced by `ToCidCallback`: the cid
channel (`none` models a nil channel, on which every receive blocks), the
error channel, and `worker = some tr` when a drain goroutine was started
whose event trace is `tr` (`none` when no goroutine was started). -/
structure CidCallbackReturn where
  cidChan : Option (BufChan Cid)
  errChan : BufChan GoErr
  worker : Option (List ChanEvent)
deriving DecidableEq, Repr

/-- Embedding of `ToCidCallback`'s callback applied to one lookup key,
with the `Supply` call's outcome passed in: on a supply error it makes a
capacity-1 error channel, buffers exactly that error, closes it via the
deferred close at return, and returns a nil cid channel without starting
any goroutine; otherwise it returns the two fresh capacity-1 channels of
`toChan` with the drain goroutine started over the iterator. -/
def ToCidCallback (supplyRes : Except GoErr (List NextStep)) : CidCallbackReturn :=
  match supplyRes with
  | .error e =>
      { cidChan := none
        errChan := { capacity := 1, buffered := [e], closed := true }
        worker := none }
  | .ok ci =>
      { cidChan := some { capacity := 1, buffered := [], closed := false }
        errChan := { capacity := 1, buffered := [], closed := false }
        worker := some (toChanTrace ci) }

/-! ## Advertisement builder (engine/xproviders `AdBuilder.BuildAndSign`)

The builder implementation itself is not among the given sources; its
tests are.  The model below follows spec section 4.1 except where the
tests pin different behaviour for the implicit main-provider entry
(`TestPublish` requires the main provider to be appended when other
extended providers are supplied even though `Override` is true, and
`TestMainProviderShouldNotBeAddedAsExtendedIfThereAreNoOthers` requires no
implicit entry when none are supplied). -/

/-- Modelled from the spec: `xproviders.Info`, one extended-provider entry
as supplied to `WithExtendedProviders` (its signing key is irrelevant to
the list-shape claims and omitted). -/
structure XInfo where
  id : String
  addrs : List String
  metadata : Bytes
deriving DecidableEq, Repr

/-- Modelled from the spec: an `ExtendedProvider` entry of the built
advertisement (per-entry signatures omitted). -/
structure XProvider where
  id : String
  addresses : List String
  metadata : Bytes
deriving DecidableEq, Repr

/-- Modelled from the spec: the `ExtendedProvider` field of an
advertisement. -/
structure ExtendedProviderField where
  override : Bool
  providers : List XProvider
deriving DecidableEq, Repr

/-- Modelled from the spec: the fields of a built advertisement that the
builder claims are about (links, entries and signatures omitted). -/
structure Advertisement where
  provider : String
  addresses : List String
  contextID : Bytes
  metadata : Bytes
  extendedProvider : ExtendedProviderField
deriving DecidableEq, Repr

/-- Modelled from the spec: the accumulated `AdBuilder` state right before
`BuildAndSign` (main identity, key addresses, chained configuration). -/
structure AdBuilderState where
  providerID : String
  providerAddrs : List String
  metadata : Bytes
  contextID : Bytes
  override : Bool
  providers : List XInfo
deriving DecidableEq, Repr

/-- Failure signals of `BuildAndSign`. -/
inductive BuildErr where
  | overrideEmptyContext
  | emptyAddrs
  | invalidPeerID
deriving DecidableEq, Repr

/-- Modelled from the spec: deduplication of the supplied extended-provider
list by `ID`, preserving first-seen order (spec section 4.1 step 3). -/
def dedupByID (l : List XInfo) : List XInfo :=
  l.foldl (fun acc i => if acc.any (fun j => j.id = i.id) then acc else acc ++ [i]) []

/-- Modelled from the spec: `BuildAndSign`, whose implementation is not
among the given sources.  Validation follows spec section 4.1 steps 1-3
(override requires a context ID, every entry needs non-empty addresses and
a syntactically valid peer identity, then deduplication by ID); the
implicit main-provider entry follows the repository's tests, which pin
that it is appended exactly when the supplied list is non-empty and does
not already contain the main identity, regardless of `Override`.  Peer-ID
syntax checking is external and passed in as `validPeer`. -/
def BuildAndSign (validPeer : String → Bool) (b : AdBuilderState) :
    Except BuildErr Advertisement :=
  if b.override ∧ b.contextID = [] then .error .overrideEmptyContext
  else if b.providers.any (fun i => i.addrs = []) then .error .emptyAddrs
  else if b.providers.any (fun i => ¬ validPeer i.id) then .error .invalidPeerID
  else
    let deduped := dedupByID b.providers
    let withMain :=
      if deduped ≠ [] ∧ ¬ deduped.any (fun i => i.id = b.providerID) then
        deduped ++ [⟨b.providerID, b.providerAddrs, b.metadata⟩]
      else deduped
    .ok
      { provider := b.providerID
        addresses := b.providerAddrs
        contextID := b.contextID
        metadata := b.metadata
        extendedProvider :=
          { override := b.override
            providers := withMain.map (fun i => ⟨i.id, i.addrs, i.metadata⟩) } }

/-! ## Ingest verifier (cmd/provider/verify_ingest.go)

Multihashes are identified by their string form (`mh.String()`, the form
the Go code keys its lookup map by).  The remote finder client and the
iterable index are external; the finder is a function from the batched
request to a response or error, the index is the list of multihashes its
`ForEach` enumerates (or the error `ForEach` reports). -/

/-- String form of a multihash, as used to key the verifier's lookup map. -/
abbrev Mh := String

/-- One provider record of a finder response (`model.ProviderResult`);
only `Provider.ID.String()` is consumed by the verifier. -/
structure ProviderResult where
  providerID : String
deriving DecidableEq, Repr

/-- Per-multihash finder result (`model.MultihashResult`). -/
structure MultihashResult where
  multihash : Mh
  providerResults : List ProviderResult
deriving DecidableEq, Repr

/-- Batched finder response (`model.FindResponse`). -/
structure FindResponse where
  multihashResults : List MultihashResult
deriving DecidableEq, Repr

/-- Tally record `verifyIngestResult` of verify_ingest.go. -/
structure VerifyIngestResult where
  total : Nat
  providerMissmatch : Nat
  present : Nat
  absent : Nat
  err : Nat
deriving DecidableEq, Repr

/-- Embedding of `verifyIngestResult.passedVerification`. -/
def passedVerification (r : VerifyIngestResult) : Bool :=
  r.present == r.total

/-- Retention of the multihashes enumerated by `idx.ForEach` in order:
the stateful `include()` closure is modelled positionally, its i-th call
deciding the i-th enumerated multihash. -/
def retain (inc : Nat → Bool) (xs : List Mh) : List Mh :=
  (xs.enum.filter (fun p => inc p.1)).map Prod.snd

/-- Lookup in the Go map `mhLookup` built by inserting every
`MultihashResult` keyed by its multihash string in response order: a later
entry with the same key overwrites an earlier one, so lookup finds the
last matching entry. -/
def mhLookupGet (rs : List MultihashResult) (k : Mh) : Option MultihashResult :=
  rs.reverse.find? (fun mr => mr.multihash == k)

/-- Classification of one retained multihash against the lookup map
(the body of the final loop of `verifyIngestFromCarIterableIndex`):
absent when the key is missing or has no provider results, present when
some provider record carries the expected provider ID, mismatch
otherwise. -/
def classifyOne (provId : String) (mhLookup : Mh → Option MultihashResult)
    (acc : VerifyIngestResult) (mh : Mh) : VerifyIngestResult :=
  match mhLookup mh with
  | none => { acc with absent := acc.absent + 1 }
  | some mr =>
      if mr.providerResults = [] then { acc with absent := acc.absent + 1 }
      else if mr.providerResults.any (fun p => p.providerID = provId) then
        { acc with present := acc.present + 1 }
      else { acc with providerMissmatch := acc.providerMissmatch + 1 }

/-- Embedding of `verifyIngestFromCarIterableIndex`: retain the sampled
multihashes, record the total, issue the single batched `FindBatch` call;
on a batch error charge every retained multihash as failed-to-verify and
return a non-error result; on an empty response mark all absent;
otherwise classify each retained multihash against the response map. -/
def verifyIngestFromCarIterableIndex
    (finder : List Mh → Except GoErr FindResponse) (provId : String)
    (inc : Nat → Bool) (idx : Except GoErr (List Mh)) :
    Except GoErr VerifyIngestResult :=
  match idx with
  | .error e => .error e
  | .ok idxMhs =>
      let mhs := retain inc idxMhs
      let mhsCount := mhs.length
      let result0 : VerifyIngestResult :=
        { total := mhsCount, providerMissmatch := 0, present := 0, absent := 0, err := 0 }
      match finder mhs with
      | .error _ => .ok { result0 with err := mhsCount }
      | .ok response =>
          if response.multihashResults.length = 0 then
            .ok { result0 with absent := mhsCount }
          else
            .ok (mhs.foldl (classifyOne provId (mhLookupGet response.multihashResults)) result0)

/-- Embedding of `beforeVerifyIngest`: rejects a sampling probability
outside (0,1]; with probability exactly 1 the selector always includes and
the seed is left untouched; otherwise a zero seed is replaced by the
current time and the selector includes the i-th candidate when the i-th
draw of the seeded generator is at most the probability.  `rngFloat` is
the abstract deterministic stream of `rand.Float64` draws of a seeded
`math/rand` generator; `now` is the value of `time.Now().UnixNano()`.
Floating-point values are modelled as rationals. -/
def beforeVerifyIngest (rngFloat : Int → Nat → Rat) (now : Int)
    (samplingProb : Rat) (rngSeed : Int) : Except GoErr ((Nat → Bool) × Int) :=
  if samplingProb ≤ 0 ∨ 1 < samplingProb then
    .error "Sampling probability must be larger than 0.0 and smaller or equal to 1.0."
  else if samplingProb = 1 then
    .ok (fun _ => true, rngSeed)
  else
    let seed := if rngSeed = 0 then now else rngSeed
    .ok (fun i => rngFloat seed i ≤ samplingProb, seed)

/-! ## Claims about the advertisement builder (C1) -/

/-- Builder input used to refute C1 as stated: override is on, the context
ID is non-empty, and two extended providers distinct from the main
identity are supplied. -/
def c1Builder : AdBuilderState :=
  { providerID := "main"
    providerAddrs := ["addrM1", "addrM2"]
    metadata := [1]
    contextID := [2]
    override := true
    providers := [⟨"p1", ["a1"], [3]⟩, ⟨"p2", ["a2"], [4]⟩] }

/-- Result of the concrete two-multihash verifier run used as the C6
witness: "m1" is present with the expected provider, "m2" is absent. -/
def c6Run : VerifyIngestResult :=
  { total := 2, providerMissmatch := 0, present := 1, absent := 1, err := 0 }

/-! ## Reverse registration key (car_supplier.go `toPathKey`, C3) -/

/-- Standard base64 alphabet of RFC 4648, as used by Go's
`base64.StdEncoding`. -/
def b64Alphabet : List Char :=
  "ABCDEFGHIJKLMNOPQRSTUVWXYZabcdefghijklmnopqrstuvwxyz0123456789+/".toList

/-- Character for a 6-bit group. -/
def b64Char (n : Nat) : Char := b64Alphabet.getD n 'A'

/-- Standard base64 encoding with padding of a byte sequence
(`base64.StdEncoding.EncodeToString`). -/
def base64Encode : Bytes → List Char
  | b1 :: b2 :: b3 :: rest =>
      b64Char (b1 / 4) :: b64Char (b1 % 4 * 16 + b2 / 16) ::
        b64Char (b2 % 16 * 4 + b3 / 64) :: b64Char (b3 % 64) :: base64Encode rest
  | [b1, b2] =>
      [b64Char (b1 / 4), b64Char (b1 % 4 * 16 + b2 / 16), b64Char (b2 % 16 * 4), '=']
  | [b1] => [b64Char (b1 / 4), b64Char (b1 % 4 * 16), '=', '=']
  | [] => []

/-- UTF-8 encoding of one character (the byte layout of Go strings). -/
def utf8Bytes (c : Char) : Bytes :=
  let v := c.toNat
  if v ≤ 0x7f then [v]
  else if v ≤ 0x7ff then [v / 64 % 32 + 0xc0, v % 64 + 0x80]
  else if v ≤ 0xffff then [v / 4096 % 16 + 0xe0, v / 64 % 64 + 0x80, v % 64 + 0x80]
  else [v / 262144 % 8 + 0xf0, v / 4096 % 64 + 0x80, v / 64 % 64 + 0x80, v % 64 + 0x80]

/-- UTF-8 bytes of a Go string (`[]byte(s)`). -/
def strBytes (s : String) : Bytes := s.toList.flatMap utf8Bytes

/-- SHA-256 digest of the empty message.  `toPathKey` calls
`sha256.New().Sum(data)` without ever writing to the hasher, and Go's
`hash.Hash.Sum` appends the digest of the written stream — here the empty
stream — to its argument, so this constant is the only digest the code
ever produces. -/
def sha256EmptyDigest : Bytes :=
  [0xe3, 0xb0, 0xc4, 0x42, 0x98, 0xfc, 0x1c, 0x14, 0x9a, 0xfb, 0xf4, 0xc8,
   0x99, 0x6f, 0xb9, 0x24, 0x27, 0xae, 0x41, 0xe4, 0x64, 0x9b, 0x93, 0x4c,
   0xa4, 0x95, 0x99, 0x1b, 0x78, 0x52, 0xb8, 0x55]

/-- Embedding of the expression `sha256.New().Sum(data)` of `toPathKey`:
`Sum` appends the digest of everything written to the hasher (nothing) to
its argument and returns the result — it does not hash `data`. -/
def sha256NewSum (data : Bytes) : Bytes := data ++ sha256EmptyDigest

/-- Namespace constant `carPathKeyPrefix` of car_supplier.go. -/
def carPathKeyNS : String := "car://"

/-- String content of the reverse registration key computed by
`toPathKey`: the namespace constant followed by the standard base64
encoding of `sha256.New().Sum([]byte(path))`. -/
def toPathKeyString (path : String) : String :=
  carPathKeyNS ++ String.mk (base64Encode (sha256NewSum (strBytes path)))

/-! ## Go's `filepath.Clean` (Unix rules)

`Put`, `PutWithID` and `Remove` clean their path argument first, so the
lexical cleaning algorithm of Go's path/filepath package is embedded in
full (Unix separator; `FromSlash` is the identity there).  The Go loop
walks the input with a read index and an output buffer; here the
yet-unread input is the list argument, the output buffer is `out`, and
the inner element-copying loop of the original becomes the `copying`
mode, consuming one character per step so that the recursion is
structural and computable. -/

/-- Backward scan of Go's `..` case: starting at index `w`, decrement
while above the `dotdot` fence and not on a separator; the result is the
new output length. -/
def bkLoop (out : List Char) (dotdot : Nat) : Nat → Nat
  | 0 => 0
  | w + 1 =>
      if w + 1 > dotdot ∧ out.getD (w + 1) ' ' ≠ '/' then bkLoop out dotdot w
      else w + 1

/-- Backtracking of the `..` case: truncate the output buffer to remove
its last path element. -/
def backtrack (out : List Char) (dotdot : Nat) : List Char :=
  out.take (bkLoop out dotdot (out.length - 1))

/-- The `..` path-element case of `Clean`: backtrack when the output
extends past the `dotdot` fence; otherwise, when not rooted, append a
`..` element and move the fence to the new output length; otherwise leave
the state unchanged. -/
def dotdotStep (rooted : Bool) (out : List Char) (dotdot : Nat) : List Char × Nat :=
  if out.length > dotdot then (backtrack out dotdot, dotdot)
  else if rooted = false then
    let o := (if out.length > 0 then out ++ ['/'] else out) ++ ['.', '.']
    (o, o.length)
  else (out, dotdot)

/-- Separator-then-character append of the element-start case: a
separator is written unless the output is still at its initial length
(1 when rooted, 0 otherwise). -/
def extendElem (rooted : Bool) (out : List Char) (c : Char) : List Char :=
  (if (rooted = true ∧ out.length ≠ 1) ∨ (rooted = false ∧ out.length ≠ 0) then
    out ++ ['/']
  else out) ++ [c]

/-- Main loop of `Clean`.  In `copying` mode the current path element is
being copied character by character (the inner `for` of the Go code); out
of it, the next character is dispatched as in the Go `switch`: separators
are skipped, a lone `.` element is dropped, a `..` element triggers
`dotdotStep`, anything else starts a new element.  The single-character
cases inline the immediately following loop exit (`r = n`) of the Go
code, returning what the exhausted loop would return. -/
def cleanLoop (rooted : Bool) : List Char → List Char → Nat → Bool → List Char
  | [], out, _, _ => out
  | [c], out, _, true => if c = '/' then out else out ++ [c]
  | [c], out, _, false =>
      if c = '/' then out
      else if c = '.' then out
      else extendElem rooted out c
  | c :: c2 :: t, out, dotdot, true =>
      if c = '/' then cleanLoop rooted (c2 :: t) out dotdot false
      else cleanLoop rooted (c2 :: t) (out ++ [c]) dotdot true
  | c :: c2 :: t, out, dotdot, false =>
      if c = '/' then cleanLoop rooted (c2 :: t) out dotdot false
      else if c = '.' ∧ c2 = '/' then cleanLoop rooted (c2 :: t) out dotdot false
      else if c = '.' ∧ c2 = '.' ∧ (t = [] ∨ t.head? = some '/') then
        cleanLoop rooted t (dotdotStep rooted out dotdot).1 (dotdotStep rooted out dotdot).2 false
      else cleanLoop rooted (c2 :: t) (extendElem rooted out c) dotdot true

/-- Embedding of Go's `filepath.Clean` for Unix paths: the empty path
cleans to `.`; a rooted path starts the output at `/` with the fence at
1; an output that ends empty becomes `.`. -/
def filepathClean (path : String) : String :=
  let cs := path.toList
  if cs = [] then "."
  else if cs.head? = some '/' then
    let res := cleanLoop true cs.tail ['/'] 1 false
    if res = [] then "." else String.mk res
  else
    let res := cleanLoop false cs [] 0 false
    if res = [] then "." else String.mk res

/-! ## Normal form of cleaned outputs

Infrastructure for reasoning about `cleanLoop` states: a reachable output
buffer is a join of leading `..` elements (only when not rooted) and
valid path elements, and the `dotdot` fence sits at the end of the `..`
block.  `base` and `fence` render such a state. -/

/-- A path element of a cleaned path: non-empty, separator-free, and
neither `.` nor `..`. -/
def ValidSeg (e : List Char) : Prop :=
  e ≠ [] ∧ '/' ∉ e ∧ e ≠ ['.'] ∧ e ≠ ['.', '.']

/-- Every element valid. -/
def AllValid (segs : List (List Char)) : Prop := ∀ e ∈ segs, ValidSeg e

/-- The `..` element. -/
def ddot : List Char := ['.', '.']

/-- Join path elements with the separator. -/
def joinSegs : List (List Char) → List Char
  | [] => []
  | e :: rest => e ++ (if rest = [] then [] else '/' :: joinSegs rest)

/-- Output buffer of a cleaned state: rooted outputs are a separator
followed by the joined elements; unrooted outputs join `k` leading `..`
elements and the valid elements. -/
def base : Bool → Nat → List (List Char) → List Char
  | true, _, segs => '/' :: joinSegs segs
  | false, k, segs => joinSegs (List.replicate k ddot ++ segs)

/-- The `dotdot` fence of a cleaned state: 1 when rooted, otherwise the
length of the joined `..` block. -/
def fence : Bool → Nat → Nat
  | true, _ => 1
  | false, k => (joinSegs (List.replicate k ddot)).length

/-- Normal form of cleaned strings: `.`, a rooted join of valid elements,
or leading `..` elements followed by valid elements (not both empty). -/
def CleanNF (str : String) : Prop :=
  str = "." ∨
  (∃ segs, AllValid segs ∧ str.toList = '/' :: joinSegs segs) ∨
  (∃ k segs, AllValid segs ∧ k + segs.length ≠ 0 ∧
    str.toList = joinSegs (List.replicate k ddot ++ segs))

/-! ## CAR supplier registration store (car_supplier.go)

The external key-value datastore is modelled as an association list with
put-prepends / get-finds-first / delete-removes-all semantics, which is
exactly a finite map.  Keys are either a forward key (`NewKey(id.String())`)
or a reverse key (`NewKey(carPathKeyPrefix + encPathHash)`); the two kinds
can never collide because every reverse key starts with the `car://`
Values are the byte strings the code stores: a path (`[]byte(path)`) or a
cid (`id.Bytes()`). -/

/-- Datastore key. -/
inductive DsKey where
  | carId (id : Cid)
  | pathKey (s : String)
deriving DecidableEq, Repr

/-- Datastore value. -/
inductive DsValue where
  | pathBytes (path : String)
  | cidBytes (id : Cid)
deriving DecidableEq, Repr

/-- Datastore contents. -/
abbrev Datastore := List (DsKey × DsValue)

/-- Store a key-value pair (`ds.Put`), overwriting any previous binding. -/
def dsPut (ds : Datastore) (k : DsKey) (v : DsValue) : Datastore := (k, v) :: ds

/-- Remove every binding of a key (`ds.Delete`); deleting a missing key
succeeds, as for the map datastore. -/
def dsDelete (ds : Datastore) (k : DsKey) : Datastore :=
  ds.filter (fun e => ¬ e.1 = k)

/-- Look a key up (`ds.Get`); `none` is `datastore.ErrNotFound`. -/
def dsGet (ds : Datastore) (k : DsKey) : Option DsValue :=
  (ds.find? (fun e => e.1 = k)).map Prod.snd

/-- Errors of the supplier operations: the datastore's not-found, the
package's distinguished `ErrNotFound`, and a `cid.CidFromBytes` parse
failure. -/
inductive SupErr where
  | dsNotFound
  | errNotFound
  | cidParse
deriving DecidableEq, Repr

/-- Forward key of a registration (`toCarIdKey`). -/
def toCarIdKey (id : Cid) : DsKey := .carId id

/-- Reverse key of a registration (`toPathKey`). -/
def toPathKey (path : String) : DsKey := .pathKey (toPathKeyString path)

/-- Abstract rendering of raw cid bytes as a Go string (`string(b)`);
only reachable when a store holds cid bytes under a forward key's slot,
which the embedded operations never produce. -/
def cidBytesAsString (id : Cid) : String := toString id

/-- Go's `string(b)` on a stored value. -/
def dsValueAsString : DsValue → String
  | .pathBytes p => p
  | .cidBytes id => cidBytesAsString id

/-- Embedding of `CarSupplier.PutWithID`: clean the path, store the
forward mapping from the CAR ID to the path, then the reverse mapping
from the path key to the id; the pure map store cannot fail. -/
def PutWithID (id : Cid) (path : String) (ds : Datastore) : Cid × Datastore :=
  let p := filepathClean path
  (id, dsPut (dsPut ds (toCarIdKey id) (.pathBytes p)) (toPathKey p) (.cidBytes id))

/-- Embedding of `CarSupplier.Put`: clean the path, derive the content
identifier and delegate to `PutWithID`.  `generateID` opens the CAR at
the cleaned path and hashes its cid list through the external SHA-256
stream accumulator, so it is passed in as `genID`. -/
def Put (genID : String → Except GoErr Cid) (path : String) (ds : Datastore) :
    Except GoErr (Cid × Datastore) :=
  let p := filepathClean path
  match genID p with
  | .error e => .error e
  | .ok id => .ok (PutWithID id p ds)

/-- Embedding of `CarSupplier.getCarIDFromPathKey`: read the reverse key
and parse the stored bytes as a cid. -/
def getCarIDFromPathKey (ds : Datastore) (k : DsKey) : Except SupErr Cid :=
  match dsGet ds k with
  | none => .error .dsNotFound
  | some (.cidBytes id) => .ok id
  | some (.pathBytes _) => .error .cidParse

/-- Embedding of `CarSupplier.Remove`: clean the path, find the CAR ID
through the reverse key — mapping the datastore's not-found to the
distinguished `ErrNotFound` — then delete the forward mapping and the
reverse mapping, in that order. -/
def Remove (path : String) (ds : Datastore) : Except SupErr (Cid × Datastore) :=
  let p := filepathClean path
  let pk := toPathKey p
  match getCarIDFromPathKey ds pk with
  | .error e => .error (if e = .dsNotFound then .errNotFound else e)
  | .ok id =>
      let ds1 := dsDelete ds (toCarIdKey id)
      let ds2 := dsDelete ds1 pk
      .ok (id, ds2)

/-- Embedding of `CarSupplier.Supply`: read the forward key — a missing
key is the distinguished `ErrNotFound` — and open a cid iterator over the
CAR at the stored path; opening is external and passed in as `openCar`. -/
def Supply (openCar : String → Except SupErr (List NextStep)) (ds : Datastore)
    (key : Cid) : Except SupErr (List NextStep) :=
  match dsGet ds (toCarIdKey key) with
  | none => .error .errNotFound
  | some v => openCar (dsValueAsString v)

/-- Advertisement built from `c1Builder`. -/
def c1Ad : Advertisement :=
  { provider := "main"
    addresses := ["addrM1", "addrM2"]
    contextID := [2]
    metadata := [1]
    extendedProvider :=
      { override := true
        providers :=
          [⟨"p1", ["a1"], [3]⟩, ⟨"p2", ["a2"], [4]⟩,
           ⟨"main", ["addrM1", "addrM2"], [1]⟩] } }

/-! ## Claims about the streaming adapter (C2, C10) -/

/-- C2: the claim says that after a non-EOF error the adapter forwards the
error and then closes both channels with no further value sent.  The code
instead falls through after `errChan <- err` and sends the accompanying
cid value before looping again: on the iterator run that returns
`(cid 0, "boom")` and then EOF, the goroutine's trace carries a value send
after the error send, and the close only happens at EOF. -/
theorem toChan_sends_value_after_error :
    toChanTrace [.fail 0 "boom", .eof] =
      [.errSent "boom", .valSent 0, .closedBoth] ∧
    toChanTrace [.fail 0 "boom", .eof] ≠ [.errSent "boom", .closedBoth] := by
  refine ⟨rfl, ?_⟩
  decide

/-- C10: when `Supply` fails, the callback built by `ToCidCallback`
returns a nil cid channel together with a capacity-1 error channel that
buffers exactly the supply error and is already closed by the deferred
close, and no drain goroutine is started. -/
theorem toCidCallback_supply_error (e : GoErr) :
    ToCidCallback (.error e) =
      { cidChan := none
        errChan := { capacity := 1, buffered := [e], closed := true }
        worker := none } := rfl

/-- C1 counterexample: with `Override = true` and two other extended
providers supplied, the build succeeds and the resulting provider list
ends with an implicit entry for the main provider even though no entry
with the main identity was supplied — exactly what the repository's
`TestPublish` requires (3 entries, the main provider among them). -/
theorem buildAndSign_override_adds_main_counterexample :
    (BuildAndSign (fun _ => true) c1Builder).map
        (fun ad => ad.extendedProvider.providers.map (fun p => p.id)) =
      .ok ["p1", "p2", "main"] ∧
    c1Builder.providers.any (fun i => i.id = "main") = false := by
  constructor
  · rfl
  · rfl

/-- Helper: the fold underlying `dedupByID` never shrinks a non-empty
accumulator to empty. -/
theorem dedupByID_go_ne_nil (l : List XInfo) (acc : List XInfo) (h : acc ≠ []) :
    l.foldl (fun acc i => if acc.any (fun j => j.id = i.id) then acc else acc ++ [i]) acc ≠ [] := by
  induction l generalizing acc with
  | nil => exact h
  | cons x xs ih =>
      simp only [List.foldl_cons]
      by_cases hc : acc.any (fun j => j.id = x.id)
      · simpa [hc] using ih acc h
      · simp only [hc]
        exact ih (acc ++ [x]) (by simp)

/-- Helper: deduplication by ID returns the empty list exactly on the
empty input. -/
theorem dedupByID_eq_nil_iff (l : List XInfo) : dedupByID l = [] ↔ l = [] := by
  constructor
  · intro h
    cases l with
    | nil => rfl
    | cons x xs =>
        exfalso
        apply dedupByID_go_ne_nil xs [x] (by simp)
        simpa [dedupByID] using h
  · intro h
    subst h
    rfl

/-- Helper: shape of the provider list of a successfully built
advertisement. -/
theorem buildAndSign_providers (validPeer : String → Bool) (b : AdBuilderState)
    (ad : Advertisement) (h : BuildAndSign validPeer b = .ok ad) :
    ad.extendedProvider.providers =
      (if dedupByID b.providers ≠ [] ∧
          ¬ (dedupByID b.providers).any (fun i => i.id = b.providerID) then
        dedupByID b.providers ++ [⟨b.providerID, b.providerAddrs, b.metadata⟩]
      else dedupByID b.providers).map (fun i => ⟨i.id, i.addrs, i.metadata⟩) := by
  unfold BuildAndSign at h
  split at h
  · exact absurd h (by simp)
  · split at h
    · exact absurd h (by simp)
    · split at h
      · exact absurd h (by simp)
      · simp only [Except.ok.injEq] at h
        subst h
        rfl

/-- C1 amended: with `Override = true`, a successfully built
advertisement's extended-provider list contains an entry with the main
provider's identity exactly when the supplied list is non-empty — the
implicit main entry is appended whenever other providers were supplied
(and kept when explicitly supplied), never when none were. -/
theorem buildAndSign_override_main_iff_supplied_nonempty
    (validPeer : String → Bool) (b : AdBuilderState) (ad : Advertisement)
    (_hov : b.override = true)
    (hbuild : BuildAndSign validPeer b = .ok ad) :
    ad.extendedProvider.providers.any (fun p => p.id = b.providerID) =
      !b.providers.isEmpty := by
  have hshape := buildAndSign_providers validPeer b ad hbuild
  rw [hshape]
  by_cases hnil : dedupByID b.providers = []
  · have hl : b.providers = [] := (dedupByID_eq_nil_iff _).mp hnil
    simp [hl, dedupByID]
  · have hl : b.providers ≠ [] := by
      intro hc
      exact hnil ((dedupByID_eq_nil_iff _).mpr hc)
    have hle : b.providers.isEmpty = false := by
      cases hp : b.providers with
      | nil => exact absurd hp hl
      | cons a t => rfl
    rw [hle]
    simp only [Bool.not_false]
    split
    · simp [List.any_map, Function.comp]
    · next hc =>
        have hany : (dedupByID b.providers).any (fun i => i.id = b.providerID) = true := by
          rcases not_and_or.mp hc with h1 | h2
          · exact absurd hnil (by simpa using h1)
          · simpa using h2
        simp only [List.any_eq_true] at hany ⊢
        rcases hany with ⟨i, hi, hid⟩
        exact ⟨_, List.mem_map_of_mem _ hi, by simpa using hid⟩

/-! ## Claims about the ingest verifier (C4, C5, C6) -/

/-- Helper: one classification step leaves the total and failed-to-verify
counters untouched and increments the sum of the other three counters by
exactly one. -/
theorem classifyOne_fields (provId : String) (mhLookup : Mh → Option MultihashResult)
    (acc : VerifyIngestResult) (mh : Mh) :
    (classifyOne provId mhLookup acc mh).total = acc.total ∧
    (classifyOne provId mhLookup acc mh).err = acc.err ∧
    (classifyOne provId mhLookup acc mh).absent +
        (classifyOne provId mhLookup acc mh).providerMissmatch +
        (classifyOne provId mhLookup acc mh).present =
      acc.absent + acc.providerMissmatch + acc.present + 1 := by
  simp only [classifyOne]
  cases hm : mhLookup mh with
  | none =>
      refine ⟨rfl, rfl, ?_⟩
      show acc.absent + 1 + acc.providerMissmatch + acc.present =
        acc.absent + acc.providerMissmatch + acc.present + 1
      omega
  | some mr =>
      dsimp only
      by_cases h1 : mr.providerResults = []
      · rw [if_pos h1]
        exact ⟨rfl, rfl, by dsimp only; omega⟩
      · rw [if_neg h1]
        by_cases h2 : mr.providerResults.any (fun p => p.providerID = provId)
        · rw [if_pos h2]
          exact ⟨rfl, rfl, by dsimp only; omega⟩
        · rw [if_neg h2]
          exact ⟨rfl, rfl, by dsimp only; omega⟩

/-- Helper: the classification fold leaves total and failed-to-verify
untouched and adds the number of classified multihashes to the sum of the
absent, mismatch and present counters. -/
theorem classifyFold_fields (provId : String) (mhLookup : Mh → Option MultihashResult)
    (mhs : List Mh) (acc : VerifyIngestResult) :
    (mhs.foldl (classifyOne provId mhLookup) acc).total = acc.total ∧
    (mhs.foldl (classifyOne provId mhLookup) acc).err = acc.err ∧
    (mhs.foldl (classifyOne provId mhLookup) acc).absent +
        (mhs.foldl (classifyOne provId mhLookup) acc).providerMissmatch +
        (mhs.foldl (classifyOne provId mhLookup) acc).present =
      acc.absent + acc.providerMissmatch + acc.present + mhs.length := by
  induction mhs generalizing acc with
  | nil => exact ⟨rfl, rfl, by simp⟩
  | cons mh t ih =>
      simp only [List.foldl_cons, List.length_cons]
      obtain ⟨h1, h2, h3⟩ := classifyOne_fields provId mhLookup acc mh
      obtain ⟨g1, g2, g3⟩ := ih (classifyOne provId mhLookup acc mh)
      exact ⟨by rw [g1, h1], by rw [g2, h2], by rw [g3, h3]; omega⟩

/-- C6: every result the verifier returns counts each retained multihash
in exactly one class — the four class counters always sum to the total
number of retained multihashes. -/
theorem verifyIngest_counts_sum_to_total
    (finder : List Mh → Except GoErr FindResponse) (provId : String)
    (inc : Nat → Bool) (idx : Except GoErr (List Mh)) (r : VerifyIngestResult)
    (h : verifyIngestFromCarIterableIndex finder provId inc idx = .ok r) :
    r.err + r.absent + r.providerMissmatch + r.present = r.total := by
  rcases idx with e | idxMhs
  · simp [verifyIngestFromCarIterableIndex] at h
  · simp only [verifyIngestFromCarIterableIndex] at h
    rcases hf : finder (retain inc idxMhs) with e | response
    · rw [hf] at h
      simp only [Except.ok.injEq] at h
      subst h
      simp
    · rw [hf] at h
      dsimp only at h
      by_cases hre : response.multihashResults.length = 0
      · rw [if_pos hre] at h
        simp only [Except.ok.injEq] at h
        subst h
        simp
      · rw [if_neg hre] at h
        simp only [Except.ok.injEq] at h
        subst h
        obtain ⟨h1, h2, h3⟩ :=
          classifyFold_fields provId (mhLookupGet response.multihashResults)
            (retain inc idxMhs)
            { total := (retain inc idxMhs).length, providerMissmatch := 0,
              present := 0, absent := 0, err := 0 }
        simp only at h1 h2 h3
        omega

/-- C6 witness: a concrete two-multihash run, one multihash present with
the expected provider and one absent, has class counts summing to its
total. -/
theorem verifyIngest_counts_sum_to_total_witness :
    c6Run.err + c6Run.absent + c6Run.providerMissmatch + c6Run.present = c6Run.total :=
  verifyIngest_counts_sum_to_total (fun _ => .ok ⟨[⟨"m1", [⟨"prov"⟩]⟩]⟩) "prov"
    (fun _ => true) (.ok ["m1", "m2"]) c6Run (by rfl)

/-- C5: when the single batched `FindBatch` call errors, the verifier does
not fail the run: it returns a non-error result whose failed-to-verify
count and total both equal the number of retained multihashes, with the
absent, mismatch and present counts all zero. -/
theorem verifyIngest_find_error_charges_all
    (finder : List Mh → Except GoErr FindResponse) (provId : String)
    (inc : Nat → Bool) (idxMhs : List Mh) (e : GoErr)
    (hf : finder (retain inc idxMhs) = .error e) :
    verifyIngestFromCarIterableIndex finder provId inc (.ok idxMhs) =
      .ok { total := (retain inc idxMhs).length, providerMissmatch := 0,
            present := 0, absent := 0, err := (retain inc idxMhs).length } := by
  simp only [verifyIngestFromCarIterableIndex]
  rw [hf]

/-- C5 witness: a finder that always errors, over two retained
multihashes, yields the tally (total 2, err 2, everything else 0). -/
theorem verifyIngest_find_error_charges_all_witness :
    verifyIngestFromCarIterableIndex (fun _ => .error "connection refused") "prov"
        (fun _ => true) (.ok ["m1", "m2"]) =
      .ok { total := 2, providerMissmatch := 0, present := 0, absent := 0, err := 2 } :=
  verifyIngest_find_error_charges_all (fun _ => .error "connection refused") "prov"
    (fun _ => true) ["m1", "m2"] "connection refused" rfl

/-- C4: the verdict of every verifier result is pass exactly when the
present count equals the total retained count, and a run that retains
zero multihashes always passes. -/
theorem passedVerification_iff_present_eq_total
    (finder : List Mh → Except GoErr FindResponse) (provId : String)
    (inc : Nat → Bool) (idx : Except GoErr (List Mh)) (r : VerifyIngestResult)
    (h : verifyIngestFromCarIterableIndex finder provId inc idx = .ok r) :
    (passedVerification r = true ↔ r.present = r.total) ∧
    (∀ idxMhs, idx = .ok idxMhs → retain inc idxMhs = [] →
      passedVerification r = true) := by
  constructor
  · simp [passedVerification]
  · intro idxMhs hidx hret
    subst hidx
    simp only [verifyIngestFromCarIterableIndex, hret] at h
    rcases hf : finder [] with e | response
    · rw [hf] at h
      simp only [Except.ok.injEq] at h
      subst h
      rfl
    · rw [hf] at h
      dsimp only at h
      by_cases hre : response.multihashResults.length = 0
      · rw [if_pos hre] at h
        simp only [Except.ok.injEq] at h
        subst h
        rfl
      · rw [if_neg hre] at h
        simp only [Except.ok.injEq] at h
        subst h
        rfl

/-- C4 witness: at a concrete successful run with both retained
multihashes present, the verdict is pass and present equals total; the
zero-retained conjunct is instantiated vacuously at the same run. -/
theorem passedVerification_iff_present_eq_total_witness :
    passedVerification
        { total := 1, providerMissmatch := 0, present := 1, absent := 0, err := 0 } =
      true :=
  have happ := passedVerification_iff_present_eq_total
    (fun _ => .ok ⟨[⟨"m1", [⟨"prov"⟩]⟩]⟩) "prov" (fun _ => true) (.ok ["m1"])
    { total := 1, providerMissmatch := 0, present := 1, absent := 0, err := 0 }
    (by rfl)
  happ.1.mpr rfl

/-! ## Claims about sampling (C8) -/

/-- Helper: retaining with the all-including selector keeps every
candidate in order. -/
theorem retain_all_true (xs : List Mh) : retain (fun _ => true) xs = xs := by
  have h : ∀ (n : Nat) (l : List Mh),
      ((l.enumFrom n).filter (fun p => true)).map Prod.snd = l := by
    intro n l
    induction l generalizing n with
    | nil => rfl
    | cons a t ih => simp [List.enumFrom_cons, List.filter_cons, ih]
  exact h 0 xs

/-- C8: the sampling selector built by `beforeVerifyIngest` includes every
candidate when the sampling probability is 1; and with a non-zero (that
is, explicitly fixed) seed the construction does not depend on the
current time, so two runs over the same input in the same order retain
the identical subset.  A zero seed is the CLI sentinel for "no seed
given" and is replaced by the current time. -/
theorem sampling_includes_all_and_deterministic
    (rngFloat : Int → Nat → Rat) (p : Rat) (seed now1 now2 : Int) (xs : List Mh) :
    (∀ inc s, p = 1 → beforeVerifyIngest rngFloat now1 p seed = .ok (inc, s) →
        retain inc xs = xs) ∧
    (seed ≠ 0 →
        beforeVerifyIngest rngFloat now1 p seed =
          beforeVerifyIngest rngFloat now2 p seed) ∧
    (∀ inc1 s1 inc2 s2, seed ≠ 0 →
        beforeVerifyIngest rngFloat now1 p seed = .ok (inc1, s1) →
        beforeVerifyIngest rngFloat now2 p seed = .ok (inc2, s2) →
        retain inc1 xs = retain inc2 xs) := by
  have hdet : seed ≠ 0 →
      beforeVerifyIngest rngFloat now1 p seed =
        beforeVerifyIngest rngFloat now2 p seed := by
    intro hs
    simp only [beforeVerifyIngest]
    by_cases h0 : p ≤ 0 ∨ 1 < p
    · rw [if_pos h0, if_pos h0]
    · rw [if_neg h0, if_neg h0]
      by_cases h1 : p = 1
      · rw [if_pos h1, if_pos h1]
      · rw [if_neg h1, if_neg h1]
        rw [if_neg hs, if_neg hs]
  refine ⟨?_, hdet, ?_⟩
  · intro inc s hp hok
    subst hp
    have h0 : ¬ ((1 : Rat) ≤ 0 ∨ 1 < (1 : Rat)) := by norm_num
    have hrun : beforeVerifyIngest rngFloat now1 1 seed = .ok (fun _ => true, seed) := by
      unfold beforeVerifyIngest
      rw [if_neg h0, if_pos rfl]
    rw [hrun] at hok
    simp only [Except.ok.injEq, Prod.mk.injEq] at hok
    rw [← hok.1]
    exact retain_all_true xs
  · intro inc1 s1 inc2 s2 hs h1 h2
    rw [hdet hs, h2] at h1
    simp only [Except.ok.injEq, Prod.mk.injEq] at h1
    rw [h1.1]

/-- C8 witness: at probability 1 with seed 7, the selector retains both
candidates of a two-element input, and the two runs at different clock
values coincide. -/
theorem sampling_includes_all_and_deterministic_witness :
    retain (fun _ => true) ["m1", "m2"] = ["m1", "m2"] ∧
    beforeVerifyIngest (fun _ _ => 0) 11 1 7 = beforeVerifyIngest (fun _ _ => 0) 22 1 7 :=
  have happ := sampling_includes_all_and_deterministic (fun _ _ => 0) 1 7 11 22 ["m1", "m2"]
  have h0 : ¬ ((1 : Rat) ≤ 0 ∨ 1 < (1 : Rat)) := by norm_num
  have hok : beforeVerifyIngest (fun _ _ => 0) 11 1 7 = .ok (fun _ => true, 7) := by
    unfold beforeVerifyIngest
    rw [if_neg h0, if_pos rfl]
  ⟨happ.1 (fun _ => true) 7 rfl hok, happ.2.1 (by norm_num)⟩

/-- C3: the reverse registration key is not of fixed length — contrary to
the claim (and to the comment in the code), `sha256.New().Sum(path)`
appends the empty-message digest to the path bytes instead of hashing
them, so the key length grows with the path: the one-byte path "a" yields
a 50-character key while the three-byte path "abc" yields a 54-character
key. -/
theorem toPathKey_length_depends_on_path :
    (toPathKeyString "a").length = 50 ∧ (toPathKeyString "abc").length = 54 ∧
    (toPathKeyString "a").length ≠ (toPathKeyString "abc").length := by
  refine ⟨?_, ?_, ?_⟩ <;> decide

theorem joinSegs_append (xs ys : List (List Char)) (hx : xs ≠ []) (hy : ys ≠ []) :
    joinSegs (xs ++ ys) = joinSegs xs ++ '/' :: joinSegs ys := by
  induction xs with
  | nil => exact absurd rfl hx
  | cons e rest ih =>
      cases rest with
      | nil =>
          cases ys with
          | nil => exact absurd rfl hy
          | cons y ys' => simp [joinSegs]
      | cons r rs =>
          have h2 := ih (by simp)
          simp only [List.cons_append, joinSegs, List.append_eq_nil] at h2 ⊢
          rw [h2]
          simp

theorem joinSegs_append_one (xs : List (List Char)) (e : List Char) :
    joinSegs (xs ++ [e]) = (if xs = [] then [] else joinSegs xs ++ ['/']) ++ e := by
  cases hx : xs with
  | nil => simp [joinSegs]
  | cons a t =>
      rw [← hx, joinSegs_append xs [e] (by rw [hx]; simp) (by simp)]
      simp [joinSegs, hx]

theorem joinSegs_ne_nil (xs : List (List Char)) (h : xs ≠ [])
    (h2 : ∀ e ∈ xs, e ≠ []) : joinSegs xs ≠ [] := by
  cases xs with
  | nil => exact absurd rfl h
  | cons e rest =>
      simp only [joinSegs]
      have he : e ≠ [] := h2 e (by simp)
      simp [he]

theorem joinSegs_snoc_char (xs : List (List Char)) (e : List Char) (c : Char) :
    joinSegs (xs ++ [e]) ++ [c] = joinSegs (xs ++ [e ++ [c]]) := by
  rw [joinSegs_append_one, joinSegs_append_one, List.append_assoc]

/-- Replicated `..` blocks have non-empty elements. -/
theorem replicate_ddot_ne_nil (k : Nat) : ∀ e ∈ List.replicate k ddot, e ≠ [] := by
  intro e he
  rw [List.eq_of_mem_replicate he]
  simp [ddot]

theorem allValid_ne_nil (segs : List (List Char)) (h : AllValid segs) :
    ∀ e ∈ segs, e ≠ [] := fun e he => (h e he).1

/-- Elements of an unrooted state are all non-empty. -/
theorem replicate_ddot_append_ne_nil (k : Nat) (segs : List (List Char))
    (h : AllValid segs) : ∀ e ∈ List.replicate k ddot ++ segs, e ≠ [] := by
  intro e he
  rcases List.mem_append.mp he with h1 | h2
  · exact replicate_ddot_ne_nil k e h1
  · exact allValid_ne_nil segs h e h2

/-- The base of a state never ends empty unless the state is the initial
unrooted one. -/
theorem base_eq_nil_iff (rooted : Bool) (k : Nat) (segs : List (List Char))
    (h : AllValid segs) :
    base rooted k segs = [] ↔ (rooted = false ∧ k = 0 ∧ segs = []) := by
  cases rooted with
  | true => simp [base]
  | false =>
      simp only [base]
      constructor
      · intro hb
        by_cases hk : List.replicate k ddot ++ segs = []
        · simp only [List.append_eq_nil, List.replicate_eq_nil_iff] at hk
          exact ⟨by trivial, hk.1, hk.2⟩
        · exact absurd hb (joinSegs_ne_nil _ hk (replicate_ddot_append_ne_nil k segs h))
      · rintro ⟨_, hk, hs⟩
        subst hk; subst hs
        rfl

theorem base_snoc_char (rooted : Bool) (k : Nat) (segs : List (List Char))
    (e : List Char) (c : Char) :
    base rooted k (segs ++ [e]) ++ [c] = base rooted k (segs ++ [e ++ [c]]) := by
  cases rooted with
  | true =>
      simp only [base, List.cons_append, joinSegs_snoc_char]
  | false =>
      simp only [base]
      rw [← List.append_assoc, ← List.append_assoc, joinSegs_snoc_char]

/-- Length comparison of base and fence: the output extends past the
fence exactly when a valid element is present. -/
theorem base_length_gt_fence_iff (rooted : Bool) (k : Nat) (segs : List (List Char))
    (h : AllValid segs) (hk : rooted = true → k = 0) :
    ((base rooted k segs).length > fence rooted k ↔ segs ≠ []) := by
  cases rooted with
  | true =>
      simp only [base, fence, List.length_cons]
      constructor
      · intro hl hs
        subst hs
        simp [joinSegs] at hl
      · intro hs
        have h1 : joinSegs segs ≠ [] := joinSegs_ne_nil segs hs (allValid_ne_nil segs h)
        have h2 : 0 < (joinSegs segs).length := List.length_pos.mpr h1
        omega
  | false =>
      simp only [base, fence]
      constructor
      · intro hl hs
        subst hs
        simp at hl
      · intro hs
        by_cases hr : List.replicate k ddot = ([] : List (List Char))
        · have h1 : joinSegs segs ≠ [] := joinSegs_ne_nil segs hs (allValid_ne_nil segs h)
          have h2 : 0 < (joinSegs segs).length := List.length_pos.mpr h1
          rw [hr]
          simp only [List.nil_append, joinSegs, List.length_nil]
          omega
        · rw [joinSegs_append _ _ hr hs]
          simp only [List.length_append, List.length_cons]
          omega

/-- The fence never exceeds the base length. -/
theorem fence_le_base_length (rooted : Bool) (k : Nat) (segs : List (List Char))
    (h : AllValid segs) (hk : rooted = true → k = 0) :
    fence rooted k ≤ (base rooted k segs).length := by
  by_cases hs : segs = []
  · subst hs
    cases rooted with
    | true => simp [base, fence, joinSegs]
    | false => simp [base, fence]
  · have := (base_length_gt_fence_iff rooted k segs h hk).mpr hs
    omega

theorem getD_append_left (l1 l2 : List Char) (n : Nat) (d : Char) (h : n < l1.length) :
    (l1 ++ l2).getD n d = l1.getD n d := by
  simp [List.getD_eq_getElem?_getD, List.getElem?_append_left h]

theorem getD_append_right (l1 l2 : List Char) (n : Nat) (d : Char) (h : l1.length ≤ n) :
    (l1 ++ l2).getD n d = l2.getD (n - l1.length) d := by
  simp [List.getD_eq_getElem?_getD, List.getElem?_append_right h]

theorem getD_mem (l : List Char) (i : Nat) (d : Char) (h : i < l.length) :
    l.getD i d ∈ l := by
  rw [List.getD_eq_getElem?_getD, List.getElem?_eq_getElem h]
  exact List.getElem_mem h

theorem bkLoop_step (out : List Char) (dotdot w : Nat)
    (hgt : w > dotdot) (hne : out.getD w ' ' ≠ '/') :
    bkLoop out dotdot w = bkLoop out dotdot (w - 1) := by
  cases w with
  | zero => omega
  | succ w' =>
      simp only [bkLoop]
      rw [if_pos ⟨hgt, hne⟩]
      norm_num

theorem bkLoop_stop (out : List Char) (dotdot w : Nat)
    (h : ¬(w > dotdot ∧ out.getD w ' ' ≠ '/')) :
    bkLoop out dotdot w = w := by
  cases w with
  | zero => rfl
  | succ w' =>
      simp only [bkLoop]
      rw [if_neg h]

/-- Descent of the backward scan: starting anywhere inside a separator-free
stretch above the stopping position `p`, the scan lands on `p`. -/
theorem bkLoop_descend (out : List Char) (dotdot p : Nat)
    (hd : dotdot ≤ p)
    (hstop : ¬(p > dotdot ∧ out.getD p ' ' ≠ '/')) :
    ∀ j, (∀ i, i < j → out.getD (p + 1 + i) ' ' ≠ '/') →
      bkLoop out dotdot (p + j) = p := by
  intro j
  induction j with
  | zero => intro _; exact bkLoop_stop out dotdot p hstop
  | succ j' ih =>
      intro hchars
      have hgt : p + (j' + 1) > dotdot := by omega
      have hne : out.getD (p + (j' + 1)) ' ' ≠ '/' := by
        have h1 := hchars j' (by omega)
        have h2 : p + 1 + j' = p + (j' + 1) := by omega
        rwa [h2] at h1
      rw [bkLoop_step out dotdot (p + (j' + 1)) hgt hne]
      have h3 : p + (j' + 1) - 1 = p + j' := by omega
      rw [h3]
      exact ih (fun i hi => hchars i (by omega))

/-- Backtracking across the final element of an output of the form
`pre / e`: the scan stops at the separator and the output truncates to
`pre`. -/
theorem backtrack_sep (pre e : List Char) (dotdot : Nat)
    (hd : dotdot ≤ pre.length) (he : '/' ∉ e) :
    backtrack (pre ++ '/' :: e) dotdot = pre := by
  unfold backtrack
  have hstop : ¬(pre.length > dotdot ∧ (pre ++ '/' :: e).getD pre.length ' ' ≠ '/') := by
    rintro ⟨_, hne⟩
    apply hne
    rw [getD_append_right pre _ pre.length ' ' (le_refl _)]
    simp
  have hchars : ∀ i, i < e.length →
      (pre ++ '/' :: e).getD (pre.length + 1 + i) ' ' ≠ '/' := by
    intro i hi
    rw [getD_append_right pre _ _ ' ' (by omega)]
    have h4 : pre.length + 1 + i - pre.length = i + 1 := by omega
    rw [h4]
    simp only [List.getD_cons_succ]
    intro hc
    exact he (hc ▸ getD_mem e i ' ' hi)
  have hrun := bkLoop_descend (pre ++ '/' :: e) dotdot pre.length hd hstop e.length hchars
  have hidx : (pre ++ '/' :: e).length - 1 = pre.length + e.length := by
    simp only [List.length_append, List.length_cons]
    omega
  rw [hidx, hrun]
  exact List.take_left pre ('/' :: e)

/-- Backtracking across the final element of an output of the form
`pre ++ e` where the scan stops at the fence `pre.length`: the output
truncates to `pre`. -/
theorem backtrack_fence (pre e : List Char) (he : '/' ∉ e) (hne : e ≠ []) :
    backtrack (pre ++ e) pre.length = pre := by
  unfold backtrack
  have hstop : ¬(pre.length > pre.length ∧ (pre ++ e).getD pre.length ' ' ≠ '/') := by
    rintro ⟨h1, _⟩
    omega
  have hchars : ∀ i, i < e.length - 1 →
      (pre ++ e).getD (pre.length + 1 + i) ' ' ≠ '/' := by
    intro i hi
    rw [getD_append_right pre _ _ ' ' (by omega)]
    have h4 : pre.length + 1 + i - pre.length = i + 1 := by omega
    rw [h4]
    intro hc
    exact he (hc ▸ getD_mem e (i + 1) ' ' (by omega))
  have hrun := bkLoop_descend (pre ++ e) pre.length pre.length (le_refl _) hstop
    (e.length - 1) hchars
  have hel : 0 < e.length := List.length_pos.mpr hne
  have hidx : (pre ++ e).length - 1 = pre.length + (e.length - 1) := by
    simp only [List.length_append]
    omega
  rw [hidx, hrun]
  exact List.take_left pre e

theorem allValid_dropLast (segs : List (List Char)) (h : AllValid segs) :
    AllValid segs.dropLast :=
  fun e he => h e (List.dropLast_subset segs he)

theorem allValid_snoc (segs : List (List Char)) (e : List Char)
    (h : AllValid segs) (he : ValidSeg e) : AllValid (segs ++ [e]) := by
  intro x hx
  rcases List.mem_append.mp hx with h1 | h2
  · exact h x h1
  · rw [List.mem_singleton.mp h2]
    exact he

/-- The `..` case pops the last element of `D ++ [L]`. -/
theorem dotdotStep_pop_aux (rooted : Bool) (k : Nat) (D : List (List Char))
    (L : List Char) (h : AllValid (D ++ [L])) (hk : rooted = true → k = 0) :
    dotdotStep rooted (base rooted k (D ++ [L])) (fence rooted k) =
      (base rooted k D, fence rooted k) := by
  have hL : ValidSeg L := h L (by simp)
  have hD : AllValid D := fun e he => h e (List.mem_append.mpr (Or.inl he))
  have hgt := (base_length_gt_fence_iff rooted k (D ++ [L]) h hk).mpr (by simp)
  unfold dotdotStep
  rw [if_pos hgt]
  have hb : backtrack (base rooted k (D ++ [L])) (fence rooted k) = base rooted k D := by
    cases rooted with
    | true =>
        by_cases h0 : D = []
        · subst h0
          show backtrack ('/' :: joinSegs [L]) 1 = base true k []
          have hj : joinSegs [L] = L := by simp [joinSegs]
          rw [hj]
          have hbt := backtrack_fence ['\x2f'] L hL.2.1 hL.1
          simp only [List.length_cons, List.length_nil] at hbt
          show backtrack (['\x2f'] ++ L) 1 = base true k []
          rw [hbt]
          simp [base, joinSegs]
        · show backtrack ('/' :: joinSegs (D ++ [L])) 1 = base true k D
          rw [joinSegs_append D [L] h0 (by simp)]
          have hj : joinSegs [L] = L := by simp [joinSegs]
          rw [hj]
          have hbt := backtrack_sep ('/' :: joinSegs D) L 1 (by simp) hL.2.1
          show backtrack (('/' :: joinSegs D) ++ '/' :: L) 1 = base true k D
          rw [hbt]
          rfl
    | false =>
        show backtrack (joinSegs (List.replicate k ddot ++ (D ++ [L]))) (fence false k) =
          base false k D
        rw [← List.append_assoc]
        by_cases h0 : List.replicate k ddot ++ D = []
        · rcases List.append_eq_nil.mp h0 with ⟨h1, h2⟩
          have hk0 : k = 0 := by simpa using h1
          rw [h0]
          have hj : joinSegs ([] ++ [L]) = L := by simp [joinSegs]
          rw [hj]
          have hf : fence false k = 0 := by simp [fence, hk0, joinSegs]
          rw [hf]
          have hbt := backtrack_fence [] L hL.2.1 hL.1
          simp only [List.length_nil, List.nil_append] at hbt
          rw [hbt]
          simp [base, h2, hk0, joinSegs]
        · rw [joinSegs_append _ [L] h0 (by simp)]
          have hj : joinSegs [L] = L := by simp [joinSegs]
          rw [hj]
          have hle : fence false k ≤ (joinSegs (List.replicate k ddot ++ D)).length := by
            have := fence_le_base_length false k D hD (by intro hc; cases hc)
            simpa [base] using this
          rw [backtrack_sep _ _ _ hle hL.2.1]
          rfl
  rw [hb]

/-- The `..` case pops the last element when one is present. -/
theorem dotdotStep_pop (rooted : Bool) (k : Nat) (segs : List (List Char))
    (h : AllValid segs) (hk : rooted = true → k = 0) (hs : segs ≠ []) :
    dotdotStep rooted (base rooted k segs) (fence rooted k) =
      (base rooted k segs.dropLast, fence rooted k) := by
  have h2 : AllValid (segs.dropLast ++ [segs.getLast hs]) := by
    rw [List.dropLast_concat_getLast hs]
    exact h
  have haux := dotdotStep_pop_aux rooted k segs.dropLast (segs.getLast hs) h2 hk
  rw [List.dropLast_concat_getLast hs] at haux
  exact haux

/-- The `..` case is a no-op on a rooted output with no elements. -/
theorem dotdotStep_root_noop (k : Nat) :
    dotdotStep true (base true k []) (fence true k) = (base true k [], fence true k) := by
  unfold dotdotStep
  rw [if_neg (by simp [base, fence, joinSegs])]
  rw [if_neg (by simp)]

/-- The `..` case on an unrooted output with no elements appends a `..`
element and moves the fence. -/
theorem dotdotStep_up (k : Nat) :
    dotdotStep false (base false k []) (fence false k) =
      (base false (k + 1) [], fence false (k + 1)) := by
  unfold dotdotStep
  have hng : ¬ (base false k []).length > fence false k := by
    simp [base, fence]
  rw [if_neg hng, if_pos rfl]
  have hbase : (if (base false k []).length > 0 then base false k [] ++ ['/']
      else base false k []) ++ ['.', '.'] = base false (k + 1) [] := by
    cases k with
    | zero => simp [base, joinSegs, ddot]
    | succ k' =>
        have hne : base false (k' + 1) [] ≠ [] := by
          rw [Ne, base_eq_nil_iff false (k' + 1) [] (by intro e he; cases he)]
          simp
        have hpos : (base false (k' + 1) []).length > 0 := by
          cases hb : base false (k' + 1) [] with
          | nil => exact absurd hb hne
          | cons a t => simp
        rw [if_pos hpos]
        show (base false (k' + 1) [] ++ ['/']) ++ ddot = base false (k' + 1 + 1) []
        rw [List.append_assoc]
        show base false (k' + 1) [] ++ '/' :: ddot = base false (k' + 1 + 1) []
        simp only [base, List.append_nil]
        rw [List.replicate_succ' (k' + 1) ddot,
          joinSegs_append _ _ (by simp) (by simp)]
        simp [joinSegs]
  simp only [hbase]
  have hlen : (base false (k + 1) []).length = fence false (k + 1) := by
    simp [base, fence]
  rw [hlen]

/-- Starting a new element appends a separator (except at the initial
output) and the first character. -/
theorem extendElem_base (rooted : Bool) (k : Nat) (segs : List (List Char))
    (h : AllValid segs) (hk : rooted = true → k = 0) (c : Char) :
    extendElem rooted (base rooted k segs) c = base rooted k (segs ++ [[c]]) := by
  unfold extendElem
  cases rooted with
  | true =>
      by_cases hs : segs = []
      · subst hs
        rw [if_neg (by simp [base, joinSegs])]
        simp [base, joinSegs]
      · have hjne : joinSegs segs ≠ [] := joinSegs_ne_nil segs hs (allValid_ne_nil segs h)
        have hlen : (base true k segs).length ≠ 1 := by
          have : 0 < (joinSegs segs).length := List.length_pos.mpr hjne
          simp only [base, List.length_cons]
          omega
        rw [if_pos (Or.inl ⟨rfl, hlen⟩)]
        show ('/' :: joinSegs segs) ++ ['/'] ++ [c] = '/' :: joinSegs (segs ++ [[c]])
        rw [joinSegs_append segs [[c]] hs (by simp)]
        simp [joinSegs]
  | false =>
      by_cases hs : List.replicate k ddot ++ segs = []
      · rcases List.append_eq_nil.mp hs with ⟨h1, h2⟩
        have hk0 : k = 0 := by simpa using h1
        subst hk0
        rw [h2]
        rw [if_neg (by simp [base, joinSegs])]
        simp [base, joinSegs]
      · have hbne : base false k segs ≠ [] :=
          joinSegs_ne_nil _ hs (replicate_ddot_append_ne_nil k segs h)
        have hlen : (base false k segs).length ≠ 0 := by
          have := List.length_pos.mpr hbne
          omega
        rw [if_pos (Or.inr ⟨rfl, hlen⟩)]
        show joinSegs (List.replicate k ddot ++ segs) ++ ['/'] ++ [c] =
          joinSegs (List.replicate k ddot ++ (segs ++ [[c]]))
        rw [← List.append_assoc, joinSegs_append _ [[c]] hs (by simp)]
        simp [joinSegs]

theorem takeWhile_eq_nil_cases (t : List Char)
    (h : t.takeWhile (fun x => x ≠ '/') = []) :
    t = [] ∨ ∃ xs, t = '/' :: xs := by
  cases t with
  | nil => exact Or.inl rfl
  | cons x xs =>
      right
      simp only [List.takeWhile_cons] at h
      by_cases hx : x = '/'
      · exact ⟨xs, by rw [hx]⟩
      · simp [hx] at h

/-- Shape preservation: from any state whose output renders a normal
form, `cleanLoop` ends in an output rendering a normal form. -/
theorem cleanLoop_preserves (rooted : Bool) (s : List Char) :
    ∀ (k : Nat) (segs : List (List Char)) (copying : Bool) (e : List Char),
      AllValid segs → (rooted = true → k = 0) →
      (copying = true →
        (e ≠ [] ∧ '/' ∉ e ∧ ValidSeg (e ++ s.takeWhile (fun x => x ≠ '/')))) →
      ∃ k2 segs2, AllValid segs2 ∧ (rooted = true → k2 = 0) ∧
        cleanLoop rooted s (base rooted k (segs ++ (if copying = true then [e] else [])))
            (fence rooted k) copying =
          base rooted k2 segs2 := by
  match s with
  | [] =>
      intro k segs copying e hsegs hk hinv
      cases copying with
      | false =>
          refine ⟨k, segs, hsegs, hk, ?_⟩
          rw [show (if false = true then [e] else ([] : List (List Char))) = [] from rfl,
            List.append_nil]
          simp [cleanLoop]
      | true =>
          obtain ⟨hne, hnosep, hv⟩ := hinv rfl
          simp only [List.takeWhile_nil, List.append_nil] at hv
          refine ⟨k, segs ++ [e], allValid_snoc segs e hsegs hv, hk, ?_⟩
          rw [show (if true = true then [e] else ([] : List (List Char))) = [e] from rfl]
          simp [cleanLoop]
  | [c] =>
      intro k segs copying e hsegs hk hinv
      cases copying with
      | true =>
          obtain ⟨hne, hnosep, hv⟩ := hinv rfl
          rw [show (if true = true then [e] else ([] : List (List Char))) = [e] from rfl]
          by_cases hc : c = '/'
          · subst hc
            simp at hv
            refine ⟨k, segs ++ [e], allValid_snoc segs e hsegs hv, hk, ?_⟩
            simp [cleanLoop]
          · simp only [List.takeWhile_cons, List.takeWhile_nil] at hv
            rw [if_pos (by simpa using hc)] at hv
            refine ⟨k, segs ++ [e ++ [c]], allValid_snoc segs (e ++ [c]) hsegs hv, hk, ?_⟩
            simp only [cleanLoop, if_neg hc]
            rw [base_snoc_char]
      | false =>
          rw [show (if false = true then [e] else ([] : List (List Char))) = [] from rfl,
            List.append_nil]
          by_cases hc : c = '/'
          · subst hc
            refine ⟨k, segs, hsegs, hk, ?_⟩
            simp [cleanLoop]
          · by_cases hd : c = '.'
            · subst hd
              refine ⟨k, segs, hsegs, hk, ?_⟩
              simp [cleanLoop]
            · refine ⟨k, segs ++ [[c]], allValid_snoc segs [c] hsegs
                ⟨by simp, by simp only [List.mem_singleton]; exact Ne.symm hc,
                  by simp [hc, hd], by simp⟩, hk, ?_⟩
              simp only [cleanLoop, if_neg hc, if_neg hd]
              rw [extendElem_base rooted k segs hsegs hk c]
  | c :: c2 :: t =>
      intro k segs copying e hsegs hk hinv
      cases copying with
      | true =>
          obtain ⟨hne, hnosep, hv⟩ := hinv rfl
          rw [show (if true = true then [e] else ([] : List (List Char))) = [e] from rfl]
          by_cases hc : c = '/'
          · subst hc
            simp only [List.takeWhile_cons] at hv
            rw [if_neg (by simp)] at hv
            rw [List.append_nil] at hv
            have ih := cleanLoop_preserves rooted (c2 :: t) k (segs ++ [e]) false e
              (allValid_snoc segs e hsegs hv) hk (by intro hcc; cases hcc)
            obtain ⟨k2, segs2, h1, h2, h3⟩ := ih
            refine ⟨k2, segs2, h1, h2, ?_⟩
            simp only [cleanLoop, if_pos rfl]
            rw [show (if false = true then [e] else ([] : List (List Char))) = [] from rfl,
              List.append_nil] at h3
            exact h3
          · have hv2 : ValidSeg ((e ++ [c]) ++ (c2 :: t).takeWhile (fun x => x ≠ '/')) := by
              have htw : (c :: c2 :: t).takeWhile (fun x => x ≠ '/') =
                  c :: (c2 :: t).takeWhile (fun x => x ≠ '/') := by
                simp [List.takeWhile_cons, hc]
              rw [htw] at hv
              simpa [List.append_assoc] using hv
            have ih := cleanLoop_preserves rooted (c2 :: t) k segs true (e ++ [c])
              hsegs hk (by
                intro _
                refine ⟨by simp, ?_, hv2⟩
                intro hm
                rcases List.mem_append.mp hm with h1 | h1
                · exact hnosep h1
                · rw [List.mem_singleton] at h1
                  exact hc h1.symm)
            obtain ⟨k2, segs2, h1, h2, h3⟩ := ih
            refine ⟨k2, segs2, h1, h2, ?_⟩
            simp only [cleanLoop, if_neg hc]
            rw [base_snoc_char]
            rw [show (if true = true then [e ++ [c]] else ([] : List (List Char))) = [e ++ [c]]
              from rfl] at h3
            exact h3
      | false =>
          rw [show (if false = true then [e] else ([] : List (List Char))) = [] from rfl,
            List.append_nil]
          by_cases hc : c = '/'
          · subst hc
            have ih := cleanLoop_preserves rooted (c2 :: t) k segs false e hsegs hk
              (by intro hcc; cases hcc)
            obtain ⟨k2, segs2, h1, h2, h3⟩ := ih
            refine ⟨k2, segs2, h1, h2, ?_⟩
            simp only [cleanLoop, if_pos rfl]
            rw [show (if false = true then [e] else ([] : List (List Char))) = [] from rfl,
              List.append_nil] at h3
            exact h3
          · by_cases hdot : c = '.' ∧ c2 = '/'
            · have ih := cleanLoop_preserves rooted (c2 :: t) k segs false e hsegs hk
                (by intro hcc; cases hcc)
              obtain ⟨k2, segs2, h1, h2, h3⟩ := ih
              refine ⟨k2, segs2, h1, h2, ?_⟩
              simp only [cleanLoop, if_neg hc, if_pos hdot]
              rw [show (if false = true then [e] else ([] : List (List Char))) = [] from rfl,
                List.append_nil] at h3
              exact h3
            · by_cases hdd : c = '.' ∧ c2 = '.' ∧ (t = [] ∨ t.head? = some '/')
              · have hrw : ∀ u : List Char,
                    (if false = true then [u] else ([] : List (List Char))) = [] :=
                  fun _ => rfl
                by_cases hse : segs = []
                · subst hse
                  cases rooted with
                  | true =>
                      have hk0 : k = 0 := hk rfl
                      have ih := cleanLoop_preserves true t k [] false e
                        (by intro x hx; cases hx) (fun _ => hk0) (by intro hcc; cases hcc)
                      obtain ⟨k2, segs2, h1, h2, h3⟩ := ih
                      refine ⟨k2, segs2, h1, h2, ?_⟩
                      simp only [cleanLoop, if_neg hc, if_neg hdot, if_pos hdd]
                      rw [dotdotStep_root_noop k]
                      exact h3
                  | false =>
                      have ih := cleanLoop_preserves false t (k + 1) [] false e
                        (by intro x hx; cases hx) (by intro hcc; cases hcc)
                        (by intro hcc; cases hcc)
                      obtain ⟨k2, segs2, h1, h2, h3⟩ := ih
                      refine ⟨k2, segs2, h1, h2, ?_⟩
                      simp only [cleanLoop, if_neg hc, if_neg hdot, if_pos hdd]
                      rw [dotdotStep_up k]
                      exact h3
                · have ih := cleanLoop_preserves rooted t k segs.dropLast false e
                    (allValid_dropLast segs hsegs) hk (by intro hcc; cases hcc)
                  obtain ⟨k2, segs2, h1, h2, h3⟩ := ih
                  refine ⟨k2, segs2, h1, h2, ?_⟩
                  simp only [cleanLoop, if_neg hc, if_neg hdot, if_pos hdd]
                  rw [dotdotStep_pop rooted k segs hsegs hk hse]
                  rw [show (if false = true then [e] else ([] : List (List Char))) = []
                    from rfl, List.append_nil] at h3
                  exact h3
              · have hvseg : ValidSeg ([c] ++ (c2 :: t).takeWhile (fun x => x ≠ '/')) := by
                  refine ⟨by simp, ?_, ?_, ?_⟩
                  · intro hmem
                    rcases List.mem_append.mp hmem with h1 | h2
                    · rw [List.mem_singleton] at h1
                      exact hc h1.symm
                    · have hpred := List.mem_takeWhile_imp h2
                      simp at hpred
                  · intro heq
                    have h1 : c = '.' ∧ (c2 :: t).takeWhile (fun y => y ≠ '/') = [] := by
                      cases htake : (c2 :: t).takeWhile (fun y => y ≠ '/') with
                      | nil =>
                          rw [htake] at heq
                          simp at heq
                          exact ⟨heq, rfl⟩
                      | cons a b =>
                          rw [htake] at heq
                          simp at heq
                    obtain ⟨hcdot, htwnil⟩ := h1
                    rcases takeWhile_eq_nil_cases (c2 :: t) htwnil with h2 | ⟨xs, h2⟩
                    · cases h2
                    · have hc2 : c2 = '/' := by
                        injection h2 with h21 h22
                      exact hdot ⟨hcdot, hc2⟩
                  · intro heq
                    have h1 : c = '.' ∧ (c2 :: t).takeWhile (fun y => y ≠ '/') = ['.'] := by
                      cases htake : (c2 :: t).takeWhile (fun y => y ≠ '/') with
                      | nil =>
                          rw [htake] at heq
                          simp at heq
                      | cons a b =>
                          rw [htake] at heq
                          simp at heq
                          exact ⟨heq.1, by rw [heq.2.1, heq.2.2]⟩
                    obtain ⟨hcdot, htw1⟩ := h1
                    have h2 : c2 = '.' ∧ t.takeWhile (fun y => y ≠ '/') = [] := by
                      rw [List.takeWhile_cons] at htw1
                      by_cases hc2 : c2 = '/'
                      · rw [if_neg (by simp [hc2])] at htw1
                        cases htw1
                      · rw [if_pos (by simpa using hc2)] at htw1
                        have hinj : c2 = '.' ∧ t.takeWhile (fun y => y ≠ '/') = [] := by
                          injection htw1 with ha hb
                          exact ⟨ha, hb⟩
                        exact hinj
                    rcases takeWhile_eq_nil_cases t h2.2 with h3 | ⟨xs, h3⟩
                    · exact hdd ⟨hcdot, h2.1, Or.inl h3⟩
                    · exact hdd ⟨hcdot, h2.1, Or.inr (by rw [h3]; rfl)⟩
                have ih := cleanLoop_preserves rooted (c2 :: t) k segs true [c] hsegs hk
                  (by
                    intro _
                    refine ⟨by simp, ?_, hvseg⟩
                    intro hm
                    rw [List.mem_singleton] at hm
                    exact hc hm.symm)
                obtain ⟨k2, segs2, h1, h2, h3⟩ := ih
                refine ⟨k2, segs2, h1, h2, ?_⟩
                simp only [cleanLoop, if_neg hc, if_neg hdot, if_neg hdd]
                rw [extendElem_base rooted k segs hsegs hk c]
                rw [show (if true = true then [[c]] else ([] : List (List Char))) = [[c]]
                  from rfl] at h3
                exact h3
  termination_by s.length
  decreasing_by all_goals simp_wf <;> omega

/-- Every output of `filepathClean` is in normal form. -/
theorem filepathClean_nf (p : String) : CleanNF (filepathClean p) := by
  unfold filepathClean
  by_cases h0 : p.toList = []
  · rw [if_pos h0]
    left
    rfl
  · rw [if_neg h0]
    by_cases h1 : p.toList.head? = some '/'
    · rw [if_pos h1]
      have hpres := cleanLoop_preserves true p.toList.tail 0 [] false []
        (by intro x hx; cases hx) (fun _ => rfl) (by intro hcc; cases hcc)
      obtain ⟨k2, segs2, hv2, hk2, heq⟩ := hpres
      have heq2 : cleanLoop true p.toList.tail ['/'] 1 false = '/' :: joinSegs segs2 :=
        heq
      by_cases hres : cleanLoop true p.toList.tail ['/'] 1 false = []
      · rw [if_pos hres]
        left
        rfl
      · rw [if_neg hres]
        right; left
        exact ⟨segs2, hv2, heq2⟩
    · rw [if_neg h1]
      have hpres := cleanLoop_preserves false p.toList 0 [] false []
        (by intro x hx; cases hx) (by intro hcc; cases hcc) (by intro hcc; cases hcc)
      obtain ⟨k2, segs2, hv2, hk2, heq⟩ := hpres
      have heq2 : cleanLoop false p.toList [] 0 false =
          joinSegs (List.replicate k2 ddot ++ segs2) := heq
      by_cases hres : cleanLoop false p.toList [] 0 false = []
      · rw [if_pos hres]
        left
        rfl
      · rw [if_neg hres]
        right; right
        refine ⟨k2, segs2, hv2, ?_, heq2⟩
        intro hzero
        apply hres
        have hk0 : k2 = 0 := by omega
        have hs0 : segs2 = [] := List.length_eq_zero.mp (by omega)
        rw [heq2, hk0, hs0]
        rfl

/-- Copy phase running to the end of the input: every remaining character
is appended. -/
theorem cleanLoop_copy_end (rooted : Bool) (e2 : List Char) :
    ∀ (out : List Char) (dotdot : Nat), '/' ∉ e2 →
      cleanLoop rooted e2 out dotdot true = out ++ e2 := by
  match e2 with
  | [] =>
      intro out dotdot _
      simp [cleanLoop]
  | [c] =>
      intro out dotdot hm
      have hc : c ≠ '/' := by
        intro h
        exact hm (h ▸ List.mem_singleton_self c)
      simp [cleanLoop, hc]
  | c :: c2 :: t =>
      intro out dotdot hm
      have hc : c ≠ '/' := fun h => hm (by rw [h]; exact List.mem_cons_self '/' _)
      have ih := cleanLoop_copy_end rooted (c2 :: t) (out ++ [c]) dotdot
        (fun h => hm (List.mem_cons_of_mem c h))
      simp only [cleanLoop, if_neg hc]
      rw [ih]
      simp

/-- Copy phase up to the next separator: the element is appended, the
separator consumed, and the loop resumes out of copy mode. -/
theorem cleanLoop_copy_sep (rooted : Bool) (e2 : List Char) :
    ∀ (out : List Char) (dotdot : Nat) (r : List Char), '/' ∉ e2 →
      cleanLoop rooted (e2 ++ '/' :: r) out dotdot true =
        cleanLoop rooted r (out ++ e2) dotdot false := by
  match e2 with
  | [] =>
      intro out dotdot r _
      cases r with
      | nil => simp [cleanLoop]
      | cons r1 rs => simp [cleanLoop]
  | c :: e' =>
      intro out dotdot r hm
      have hc : c ≠ '/' := fun h => hm (by rw [h]; exact List.mem_cons_self '/' _)
      have ih := cleanLoop_copy_sep rooted e' (out ++ [c]) dotdot r
        (fun h => hm (List.mem_cons_of_mem c h))
      have hcons : (c :: e') ++ '/' :: r = c :: (e' ++ '/' :: r) := rfl
      rw [hcons]
      have hne : e' ++ '/' :: r ≠ [] := by simp
      obtain ⟨d, ds, hds⟩ : ∃ d ds, e' ++ '/' :: r = d :: ds := by
        cases hx : e' ++ '/' :: r with
        | nil => exact absurd hx hne
        | cons d ds => exact ⟨d, ds, rfl⟩
      rw [hds]
      simp only [cleanLoop, if_neg hc]
      rw [← hds, ih]
      simp

theorem joinSegs_snoc_append (xs : List (List Char)) (e1 e2 : List Char) :
    joinSegs (xs ++ [e1]) ++ e2 = joinSegs (xs ++ [e1 ++ e2]) := by
  rw [joinSegs_append_one, joinSegs_append_one, List.append_assoc]

theorem base_snoc_append (rooted : Bool) (k : Nat) (segs : List (List Char))
    (e1 e2 : List Char) :
    base rooted k (segs ++ [e1]) ++ e2 = base rooted k (segs ++ [e1 ++ e2]) := by
  cases rooted with
  | true => simp only [base, List.cons_append, joinSegs_snoc_append]
  | false =>
      simp only [base]
      rw [← List.append_assoc, ← List.append_assoc, joinSegs_snoc_append]

/-- Consuming one full valid element from the input followed by end or a
separator: the element lands in the output as its own segment. -/
theorem cleanLoop_elem (rooted : Bool) (k : Nat) (segs : List (List Char))
    (e r : List Char) (he : ValidSeg e) (h : AllValid segs)
    (hk : rooted = true → k = 0)
    (hr : r = [] ∨ ∃ r2, r = '/' :: r2) :
    cleanLoop rooted (e ++ r) (base rooted k segs) (fence rooted k) false =
      cleanLoop rooted (r.drop 1) (base rooted k (segs ++ [e])) (fence rooted k) false := by
  obtain ⟨hne, hnosep, hnd, hndd⟩ := he
  obtain ⟨c, e', rfl⟩ : ∃ c e', e = c :: e' := by
    cases e with
    | nil => exact absurd rfl hne
    | cons a b => exact ⟨a, b, rfl⟩
  have hc : c ≠ '/' := fun hx => hnosep (by rw [hx]; exact List.mem_cons_self _ _)
  cases e' with
  | nil =>
      have hcd : c ≠ '.' := fun hx => hnd (by rw [hx])
      rcases hr with rfl | ⟨r2, rfl⟩
      · rw [List.append_nil]
        simp only [cleanLoop, if_neg hc, if_neg hcd]
        rw [extendElem_base rooted k segs h hk c]
      · have hstep : ([c] ++ '/' :: r2 : List Char) = c :: '/' :: r2 := rfl
        rw [hstep]
        show (if c = '/' then _ else if c = '.' ∧ ('/' : Char) = '/' then _
          else if c = '.' ∧ ('/' : Char) = '.' ∧ (r2 = [] ∨ r2.head? = some '/') then _
          else cleanLoop rooted ('/' :: r2)
            (extendElem rooted (base rooted k segs) c) (fence rooted k) true) = _
        rw [if_neg hc,
          if_neg (show ¬(c = '.' ∧ ('/' : Char) = '/') from fun hx => hcd hx.1),
          if_neg (show ¬(c = '.' ∧ ('/' : Char) = '.' ∧ (r2 = [] ∨ r2.head? = some '/'))
            from fun hx => absurd hx.2.1 (by decide))]
        rw [extendElem_base rooted k segs h hk c]
        have hcs := cleanLoop_copy_sep rooted [] (base rooted k (segs ++ [[c]]))
          (fence rooted k) r2 (by simp)
        simp only [List.nil_append, List.append_nil] at hcs
        rw [hcs]
        rfl
  | cons c2 t' =>
      have hc2 : c2 ≠ '/' := fun hx => hnosep (by rw [hx] at *; simp)
      have hshape : (c :: c2 :: t') ++ r = c :: c2 :: (t' ++ r) := rfl
      rw [hshape]
      have hguard2 : ¬(c = '.' ∧ c2 = '/') := fun hx => hc2 hx.2
      have hguard3 : ¬(c = '.' ∧ c2 = '.' ∧
          (t' ++ r = [] ∨ (t' ++ r).head? = some '/')) := by
        rintro ⟨hcd, hc2d, hor⟩
        cases t' with
        | nil => exact hndd (by rw [hcd, hc2d])
        | cons x xs =>
            have hxs : x ≠ '/' := fun hh => hnosep (by rw [hh] at *; simp)
            rcases hor with h1 | h1
            · simp at h1
            · simp at h1
              exact hxs h1
      simp only [cleanLoop, if_neg hc, if_neg hguard2, if_neg hguard3]
      rw [extendElem_base rooted k segs h hk c]
      have hnos2 : '/' ∉ c2 :: t' := fun hh => hnosep (List.mem_cons_of_mem c hh)
      rcases hr with rfl | ⟨r2, rfl⟩
      · rw [List.append_nil]
        have hce := cleanLoop_copy_end rooted (c2 :: t')
          (base rooted k (segs ++ [[c]])) (fence rooted k) hnos2
        rw [hce, base_snoc_append]
        simp [cleanLoop]
      · have hsh3 : (c2 :: (t' ++ '/' :: r2) : List Char) = (c2 :: t') ++ '/' :: r2 := rfl
        rw [hsh3]
        have hcs := cleanLoop_copy_sep rooted (c2 :: t')
          (base rooted k (segs ++ [[c]])) (fence rooted k) r2 hnos2
        rw [hcs, base_snoc_append]
        rfl

/-- Consuming a whole join of valid elements appends them all. -/
theorem cleanLoop_segs_roundtrip (rooted : Bool) (insegs : List (List Char)) :
    ∀ (k : Nat) (segs : List (List Char)), AllValid insegs → AllValid segs →
      (rooted = true → k = 0) →
      cleanLoop rooted (joinSegs insegs) (base rooted k segs) (fence rooted k) false =
        base rooted k (segs ++ insegs) := by
  induction insegs with
  | nil =>
      intro k segs _ _ _
      rw [List.append_nil]
      rfl
  | cons e rest ih =>
      intro k segs hin hsegs hk
      have hve : ValidSeg e := hin e (by simp)
      have hinrest : AllValid rest := fun x hx => hin x (List.mem_cons_of_mem e hx)
      by_cases hrest : rest = []
      · subst hrest
        have hj : joinSegs [e] = e := by simp [joinSegs]
        rw [hj]
        have h1 := cleanLoop_elem rooted k segs e [] hve hsegs hk (Or.inl rfl)
        rw [List.append_nil] at h1
        rw [h1]
        rfl
      · have hj : joinSegs (e :: rest) = e ++ '/' :: joinSegs rest := by
          simp [joinSegs, hrest]
        rw [hj]
        have h1 := cleanLoop_elem rooted k segs e ('/' :: joinSegs rest) hve hsegs hk
          (Or.inr ⟨joinSegs rest, rfl⟩)
        rw [h1]
        have h2 := ih k (segs ++ [e]) hinrest (allValid_snoc segs e hsegs hve) hk
        show cleanLoop rooted (joinSegs rest) (base rooted k (segs ++ [e]))
          (fence rooted k) false = _
        rw [h2, List.append_assoc]
        rfl

/-- One `..` element of the input triggers the `..` transition. -/
theorem cleanLoop_ddot_step (r out : List Char) (dotdot : Nat)
    (hr : r = [] ∨ ∃ r2, r = '/' :: r2) :
    cleanLoop false (ddot ++ r) out dotdot false =
      cleanLoop false (r.drop 1) (dotdotStep false out dotdot).1
        (dotdotStep false out dotdot).2 false := by
  rcases hr with rfl | ⟨r2, rfl⟩
  · show cleanLoop false ['.', '.'] out dotdot false = _
    simp only [cleanLoop]
    rw [if_neg (by decide), if_neg (by decide), if_pos (by simp)]
  · show cleanLoop false ('.' :: '.' :: '/' :: r2) out dotdot false = _
    simp only [cleanLoop]
    rw [if_neg (by decide), if_neg (by decide), if_pos (by simp)]
    cases r2 with
    | nil => rfl
    | cons a b =>
        show cleanLoop false ('/' :: a :: b) (dotdotStep false out dotdot).1
          (dotdotStep false out dotdot).2 false = _
        simp only [cleanLoop, if_pos rfl]
        rfl

/-- Consuming `j` leading `..` elements followed by valid elements from
the initial unrooted state reproduces the same shape. -/
theorem cleanLoop_dd_roundtrip (j : Nat) (segs : List (List Char)) (hsegs : AllValid segs) :
    ∀ k : Nat,
      cleanLoop false (joinSegs (List.replicate j ddot ++ segs)) (base false k [])
        (fence false k) false = base false (k + j) segs := by
  induction j with
  | zero =>
      intro k
      simp only [List.replicate_zero, List.nil_append, Nat.add_zero]
      by_cases hs : segs = []
      · subst hs
        rfl
      · have h1 := cleanLoop_segs_roundtrip false segs k [] hsegs
          (by intro x hx; cases hx) (by intro hcc; cases hcc)
        rw [List.nil_append] at h1
        exact h1
  | succ j' ih =>
      intro k
      have hshape : List.replicate (j' + 1) ddot ++ segs =
          ddot :: (List.replicate j' ddot ++ segs) := by
        rw [List.replicate_succ, List.cons_append]
      rw [hshape]
      by_cases hrest : List.replicate j' ddot ++ segs = []
      · rcases List.append_eq_nil.mp hrest with ⟨h1, h2⟩
        have hj0 : j' = 0 := by simpa using h1
        subst hj0
        subst h2
        have hj : joinSegs [ddot] = ddot ++ [] := by simp [joinSegs]
        show cleanLoop false (joinSegs [ddot]) (base false k []) (fence false k) false = _
        rw [hj, cleanLoop_ddot_step [] (base false k []) (fence false k) (Or.inl rfl),
          dotdotStep_up k]
        rfl
      · have hj : joinSegs (ddot :: (List.replicate j' ddot ++ segs)) =
            ddot ++ '/' :: joinSegs (List.replicate j' ddot ++ segs) := by
          simp [joinSegs, hrest]
        rw [hj, cleanLoop_ddot_step _ (base false k []) (fence false k)
          (Or.inr ⟨_, rfl⟩), dotdotStep_up k]
        show cleanLoop false (joinSegs (List.replicate j' ddot ++ segs))
          (base false (k + 1) []) (fence false (k + 1)) false = base false (k + (j' + 1)) segs
        rw [ih (k + 1)]
        have harith : k + 1 + j' = k + (j' + 1) := by omega
        rw [harith]

/-- The head of a join of non-empty separator-free elements is not a
separator. -/
theorem joinSegs_head_ne_sep (xs : List (List Char)) (hx : xs ≠ [])
    (h : ∀ e ∈ xs, e ≠ [] ∧ '/' ∉ e) : ¬ (joinSegs xs).head? = some '/' := by
  cases xs with
  | nil => exact absurd rfl hx
  | cons e rest =>
      obtain ⟨hne, hnosep⟩ := h e (by simp)
      obtain ⟨c, e', rfl⟩ : ∃ c e', e = c :: e' := by
        cases e with
        | nil => exact absurd rfl hne
        | cons a b => exact ⟨a, b, rfl⟩
      have hc : c ≠ '/' := fun hh => hnosep (by rw [hh]; simp)
      have hj : joinSegs ((c :: e') :: rest) =
          c :: (e' ++ if rest = [] then [] else '/' :: joinSegs rest) := by
        simp [joinSegs]
      rw [hj]
      simp only [List.head?_cons, Option.some.injEq]
      exact hc

/-- Cleaned strings are fixed points of `filepathClean`. -/
theorem filepathClean_fixed (s : String) (h : CleanNF s) : filepathClean s = s := by
  rcases h with h1 | ⟨segs, hv, hl⟩ | ⟨k, segs, hv, hkz, hl⟩
  · rw [h1]
    rfl
  · have hne : s.toList ≠ [] := by rw [hl]; simp
    have hhead : s.toList.head? = some '/' := by rw [hl]; rfl
    simp only [filepathClean]
    rw [if_neg hne, if_pos hhead]
    have htail : s.toList.tail = joinSegs segs := by rw [hl]; rfl
    rw [htail]
    by_cases hs : segs = []
    · subst hs
      have hres : cleanLoop true (joinSegs []) ['/'] 1 false = ['/'] := rfl
      rw [hres, if_neg (by simp)]
      have h2 : (['/'] : List Char) = s.toList := by rw [hl]; rfl
      rw [h2]
      rfl
    · have hrt := cleanLoop_segs_roundtrip true segs 0 [] hv
        (by intro x hx; cases hx) (fun _ => rfl)
      rw [List.nil_append] at hrt
      have hrt2 : cleanLoop true (joinSegs segs) ['/'] 1 false = '/' :: joinSegs segs :=
        hrt
      rw [hrt2, if_neg (by simp)]
      have h2 : ('/' :: joinSegs segs : List Char) = s.toList := hl.symm
      rw [h2]
      rfl
  · have hlne : List.replicate k ddot ++ segs ≠ [] := by
      intro hc0
      rcases List.append_eq_nil.mp hc0 with ⟨h1, h2⟩
      apply hkz
      have hk0 : k = 0 := by simpa using h1
      rw [hk0, h2]
      simp
    have hne : s.toList ≠ [] := by
      rw [hl]
      exact joinSegs_ne_nil _ hlne (replicate_ddot_append_ne_nil k segs hv)
    have hhead : ¬ s.toList.head? = some '/' := by
      rw [hl]
      apply joinSegs_head_ne_sep _ hlne
      intro e he
      rcases List.mem_append.mp he with h1 | h1
      · rw [List.eq_of_mem_replicate h1]
        exact ⟨by simp [ddot], by decide⟩
      · exact ⟨(hv e h1).1, (hv e h1).2.1⟩
    simp only [filepathClean]
    rw [if_neg hne, if_neg hhead]
    have hdd := cleanLoop_dd_roundtrip k segs hv 0
    rw [Nat.zero_add] at hdd
    have hdd2 : cleanLoop false (joinSegs (List.replicate k ddot ++ segs)) [] 0 false =
        joinSegs (List.replicate k ddot ++ segs) := hdd
    rw [hl, hdd2]
    have h2 : joinSegs (List.replicate k ddot ++ segs) = s.toList := hl.symm
    rw [h2, if_neg hne]
    rfl

/-- Go's `filepath.Clean` is idempotent. -/
theorem filepathClean_idem (p : String) :
    filepathClean (filepathClean p) = filepathClean p :=
  filepathClean_fixed (filepathClean p) (filepathClean_nf p)

theorem dsGet_dsPut_self (ds : Datastore) (k : DsKey) (v : DsValue) :
    dsGet (dsPut ds k v) k = some v := by
  simp [dsGet, dsPut, List.find?_cons]

theorem dsGet_dsDelete_self (ds : Datastore) (k : DsKey) :
    dsGet (dsDelete ds k) k = none := by
  simp only [dsGet, dsDelete]
  rw [List.find?_eq_none.mpr]
  · rfl
  · intro x hx
    have hp := (List.mem_filter.mp hx).2
    simpa using hp

theorem dsGet_dsDelete_other (ds : Datastore) (k k' : DsKey) (h : ¬ k = k') :
    dsGet (dsDelete ds k') k = dsGet ds k := by
  simp only [dsGet, dsDelete]
  induction ds with
  | nil => rfl
  | cons e t ih =>
      simp only [List.filter_cons]
      by_cases he : e.1 = k'
      · rw [if_neg (by simpa using he)]
        rw [List.find?_cons_of_neg _ (by simp [he]; exact fun hc => h hc.symm)]
        exact ih
      · rw [if_pos (by simpa using he)]
        by_cases hek : e.1 = k
        · rw [List.find?_cons_of_pos _ (by simpa using hek),
            List.find?_cons_of_pos _ (by simpa using hek)]
        · rw [List.find?_cons_of_neg _ (by simpa using hek),
            List.find?_cons_of_neg _ (by simpa using hek)]
          exact ih

/-! ## Claims about the registration lifecycle (C7) -/

/-- C7: a successful `Put` or `PutWithID` of a path followed by a
successful `Remove` of the same path leaves the store without the forward
mapping, so a subsequent `Supply` of the returned identifier fails with
the distinguished not-found error. -/
theorem supply_after_put_remove_not_found
    (openCar : String → Except SupErr (List NextStep))
    (genID : String → Except GoErr Cid) (path : String) (ds : Datastore)
    (id : Cid) (ds1 : Datastore) (rid : Cid) (ds2 : Datastore)
    (hput : PutWithID id path ds = (id, ds1) ∨ Put genID path ds = .ok (id, ds1))
    (hrem : Remove path ds1 = .ok (rid, ds2)) :
    Supply openCar ds2 id = .error .errNotFound := by
  have hds1 : ds1 = dsPut (dsPut ds (toCarIdKey id)
      (DsValue.pathBytes (filepathClean path)))
      (toPathKey (filepathClean path)) (DsValue.cidBytes id) := by
    rcases hput with h1 | h1
    · have h2 := congrArg Prod.snd h1
      simpa [PutWithID] using h2.symm
    · simp only [Put] at h1
      rcases hg : genID (filepathClean path) with e | gid
      · rw [hg] at h1
        cases h1
      · rw [hg] at h1
        simp only [Except.ok.injEq] at h1
        have hfst := congrArg Prod.fst h1
        simp only [PutWithID] at hfst
        have hsnd := congrArg Prod.snd h1
        simp only [PutWithID] at hsnd
        rw [filepathClean_idem] at hsnd
        rw [← hsnd, hfst]
  have hremval : Remove path ds1 =
      .ok (id, dsDelete (dsDelete ds1 (toCarIdKey id)) (toPathKey (filepathClean path))) := by
    simp only [Remove, getCarIDFromPathKey, hds1, dsGet_dsPut_self]
  rw [hremval] at hrem
  simp only [Except.ok.injEq, Prod.mk.injEq] at hrem
  obtain ⟨hrid, hds2⟩ := hrem
  rw [← hds2]
  simp only [Supply]
  rw [dsGet_dsDelete_other _ _ _ (by simp [toCarIdKey, toPathKey]),
    dsGet_dsDelete_self]

/-- C7 witness: putting the CAR at "a//b" under identifier 7 into an empty
store, removing the same path, then supplying identifier 7 yields the
not-found error (the store is empty again after the removal). -/
theorem supply_after_put_remove_not_found_witness :
    Supply (fun _ => .ok []) [] 7 = .error .errNotFound :=
  supply_after_put_remove_not_found (fun _ => .ok []) (fun _ => .ok 7) "a//b" []
    7 ((PutWithID 7 "a//b" []).2) 7 [] (Or.inl rfl) (by rfl)

/-! ## Claims about path normalization (C9) -/

/-- C9: `Put`, `PutWithID` and `Remove` clean their path with
`filepath.Clean` before touching the store, so two paths with the same
cleaned form address the same registration record in every store. -/
theorem ops_respect_clean (p1 p2 : String) (h : filepathClean p1 = filepathClean p2) :
    (∀ genID ds, Put genID p1 ds = Put genID p2 ds) ∧
    (∀ id ds, PutWithID id p1 ds = PutWithID id p2 ds) ∧
    (∀ ds, Remove p1 ds = Remove p2 ds) := by
  refine ⟨?_, ?_, ?_⟩
  · intro genID ds
    simp only [Put, h]
  · intro id ds
    simp only [PutWithID, h]
  · intro ds
    simp only [Remove, h]

/-- C9 witness: `Remove "a//b"` acts on the store exactly as
`Remove "a/b"` does — in particular it removes the registration that
`PutWithID _ "a/b"` created. -/
theorem ops_respect_clean_witness :
    Remove "a//b" ((PutWithID 7 "a/b" []).2) = Remove "a/b" ((PutWithID 7 "a/b" []).2) :=
  (ops_respect_clean "a//b" "a/b" (by decide)).2.2 ((PutWithID 7 "a/b" []).2)

/-- C1 amended, witness: the counterexample input instantiates the amended
theorem — the built list contains the main identity and the supplied list
is non-empty. -/
theorem buildAndSign_override_main_iff_supplied_nonempty_witness :
    BuildAndSign (fun _ => true) c1Builder = .ok c1Ad ∧
    c1Ad.extendedProvider.providers.any (fun p => p.id = c1Builder.providerID) =
      !c1Builder.providers.isEmpty :=
  ⟨rfl,
    buildAndSign_override_main_iff_supplied_nonempty (fun _ => true) c1Builder c1Ad rfl rfl⟩

end IndexProvider
